import Mathlib

/-!
Verification of the `tfsc` file-transfer server (`src/server.py`) against its
natural-language specification.

Shallow embedding conventions:
* Python `str` values are modelled as `List Char` (sequences of Unicode scalar
  values).
* Byte strings and socket data are modelled as `List Nat`, each element a byte
  value.
* A TCP receive stream is modelled as `NetStream := List (List Nat)`: the list
  of successive deliveries ("chunks") available to `recv`.  A `recv n` call
  returns up to `n` bytes from the first chunk; an empty result means the peer
  closed the connection.
* Python exceptions are modelled with `PyResult`: `.exn e` is an exception `e`
  propagating out of the modelled code, `.ok v` a normal return.
* Loops are embedded as fuel-based structural recursions, with the fuel chosen
  large enough (and proved sufficient where needed) so that the fuel bound is
  never the reason a loop stops.
-/

set_option maxRecDepth 10000

namespace Tfsc

/-! ### Filename sanitizer (`secure_filename`, server.py lines 40-45)

On POSIX, `os.path.sep = '/'` and `os.path.altsep = None`, so the loop body
runs exactly once with `sep = '/'`:
`filename.replace('/', ' ')`, then `'_'.join(filename.split()).strip('_.')`.
-/

/-- The whitespace characters recognised by Python's `str.split()`
(i.e. the characters for which `str.isspace()` holds). -/
def isPySpace (c : Char) : Bool :=
  let n := c.toNat
  n == 9 || n == 10 || n == 11 || n == 12 || n == 13 ||
  n == 28 || n == 29 || n == 30 || n == 31 || n == 32 ||
  n == 133 || n == 160 || n == 5760 || (8192 ≤ n && n ≤ 8202) ||
  n == 8232 || n == 8233 || n == 8239 || n == 8287 || n == 12288

/-- Model of `filename.replace('/', ' ')`. -/
def pyReplaceSlash (s : List Char) : List Char :=
  s.map (fun c => if c = '/' then ' ' else c)

/-- Model of Python `str.split()` (no argument): split on runs of whitespace,
discarding empty pieces.  The accumulator holds the current piece reversed. -/
def pySplitAux : List Char → List Char → List (List Char)
  | [], acc => if acc = [] then [] else [acc.reverse]
  | c :: cs, acc =>
    if isPySpace c then
      if acc = [] then pySplitAux cs [] else acc.reverse :: pySplitAux cs []
    else
      pySplitAux cs (c :: acc)

def pySplit (s : List Char) : List (List Char) := pySplitAux s []

/-- Model of `'_'.join(pieces)`. -/
def pyJoinUnderscore : List (List Char) → List Char
  | [] => []
  | [p] => p
  | p :: ps => p ++ '_' :: pyJoinUnderscore ps

/-- The character set of Python `str.strip('_.')`. -/
def isStripSet (c : Char) : Bool := c = '_' || c = '.'

/-- Model of `s.strip('_.')`: drop characters of the set from both ends. -/
def pyStrip (s : List Char) : List Char :=
  ((s.dropWhile isStripSet).reverse.dropWhile isStripSet).reverse

/-- `secure_filename` (server.py lines 40-45), POSIX path separators. -/
def secure_filename (s : List Char) : List Char :=
  pyStrip (pyJoinUnderscore (pySplit (pyReplaceSlash s)))

/-! ### JSON values, number/string printing, and the header codec

`Server.generate_header` serialises a dict with `json.dumps` (default
separators `', '` / `': '`, `sort_keys=False` so insertion order,
`ensure_ascii=True` so the output is pure ASCII) and UTF-8-encodes it, which
on ASCII text is the identity on code points; the wire is therefore modelled
as `List Nat` of byte values.
-/

inductive JVal where
  | num (n : Int)
  | str (s : List Char)
deriving DecidableEq

abbrev Fields := List (List Char × JVal)

/-- The Python exceptions relevant to the modelled code paths. -/
inductive PyErr where
  | structError
  | jsonDecodeError
  | attributeError
  | typeError
  | fileNotFoundError
deriving DecidableEq

/-- Outcome of running a piece of Python code: a normal return or an
exception propagating out of it. -/
inductive PyResult (α : Type) where
  | ok (val : α)
  | exn (err : PyErr)
deriving DecidableEq

def PyResult.map {α β : Type} (f : α → β) : PyResult α → PyResult β
  | .ok v => .ok (f v)
  | .exn e => .exn e

def digitByte (d : Nat) : Nat := 48 + d

def natToBytesAux : Nat → Nat → List Nat → List Nat
  | 0, _, acc => acc
  | fuel + 1, n, acc =>
    if n = 0 then acc else natToBytesAux fuel (n / 10) (digitByte (n % 10) :: acc)

/-- Decimal digits of `n`, as ASCII bytes (Python `repr` of a non-negative int). -/
def natToBytes (n : Nat) : List Nat :=
  if n = 0 then [48] else natToBytesAux n n []

/-- Python `repr` of an int, as ASCII bytes (what `json.dumps` emits for ints). -/
def intToBytes (i : Int) : List Nat :=
  if i < 0 then 45 :: natToBytes i.natAbs else natToBytes i.toNat

/-- Lowercase hex digit, as json.dumps emits in `\uXXXX` escapes. -/
def hexDigitByte (d : Nat) : Nat := if d < 10 then 48 + d else 87 + d

def hex4 (v : Nat) : List Nat :=
  [hexDigitByte (v / 4096 % 16), hexDigitByte (v / 256 % 16),
   hexDigitByte (v / 16 % 16), hexDigitByte (v % 16)]

/-- Per-character output of `json.dumps` string escaping with
`ensure_ascii=True` (the default): shortcut escapes for quote, backslash and
the common control characters, `\uXXXX` for other controls and all non-ASCII
characters, and a surrogate pair of escapes for astral characters. -/
def escapeChar (c : Char) : List Nat :=
  let n := c.toNat
  if n = 34 then [92, 34]
  else if n = 92 then [92, 92]
  else if n = 8 then [92, 98]
  else if n = 9 then [92, 116]
  else if n = 10 then [92, 110]
  else if n = 12 then [92, 102]
  else if n = 13 then [92, 114]
  else if n < 32 then 92 :: 117 :: hex4 n
  else if n < 127 then [n]
  else if n < 65536 then 92 :: 117 :: hex4 n
  else (92 :: 117 :: hex4 (55296 + (n - 65536) / 1024)) ++
       (92 :: 117 :: hex4 (56320 + (n - 65536) % 1024))

def escapeStr : List Char → List Nat
  | [] => []
  | c :: cs => escapeChar c ++ escapeStr cs

/-- A JSON string literal: quote, escaped body, quote. -/
def dumpStr (s : List Char) : List Nat := 34 :: (escapeStr s ++ [34])

def dumpVal : JVal → List Nat
  | .num i => intToBytes i
  | .str s => dumpStr s

/-- One `"key": value` unit of a dumped dict. -/
def pairBytes (kv : List Char × JVal) : List Nat :=
  dumpStr kv.1 ++ (58 :: 32 :: dumpVal kv.2)

def dumpsTail : Fields → List Nat
  | [] => []
  | kv :: rest => (44 :: 32 :: pairBytes kv) ++ dumpsTail rest

/-- Model of `json.dumps(d).encode('utf-8')` for the dicts this server builds:
fields in insertion order, default separators. -/
def dumpsFields : Fields → List Nat
  | [] => [123, 125]
  | kv :: rest => 123 :: (pairBytes kv ++ dumpsTail rest ++ [125])

def isDigitByte (b : Nat) : Bool := 48 ≤ b && b ≤ 57

def parseDigits : List Nat → Nat → Nat × List Nat
  | [], acc => (acc, [])
  | b :: bs, acc =>
    if isDigitByte b then parseDigits bs (acc * 10 + (b - 48)) else (acc, b :: bs)

def parseInt (bs : List Nat) : Option (Int × List Nat) :=
  match bs with
  | [] => none
  | b :: tl =>
    if b = 45 then
      match tl with
      | [] => none
      | d :: _ =>
        if isDigitByte d then
          let (n, rest) := parseDigits tl 0
          some (-(n : Int), rest)
        else none
    else if isDigitByte b then
      let (n, rest) := parseDigits bs 0
      some ((n : Int), rest)
    else none

def parseHexDigit (b : Nat) : Option Nat :=
  if 48 ≤ b && b ≤ 57 then some (b - 48)
  else if 97 ≤ b && b ≤ 102 then some (b - 87)
  else if 65 ≤ b && b ≤ 70 then some (b - 55)
  else none

def parse4Hex : List Nat → Option (Nat × List Nat)
  | a :: b :: c :: d :: rest =>
    match parseHexDigit a, parseHexDigit b, parseHexDigit c, parseHexDigit d with
    | some x, some y, some z, some w =>
      some (((x * 16 + y) * 16 + z) * 16 + w, rest)
    | _, _, _, _ => none
  | _ => none

/-- Model of the string scanner of `json.loads` after an opening quote,
restricted to ASCII input bytes (encoder output is always ASCII).  Lone
surrogate escapes, which CPython tolerates, are rejected here since `Char`
holds only Unicode scalar values; they never occur in encoder output. -/
def parseStrAux : Nat → List Nat → List Char → Option (List Char × List Nat)
  | 0, _, _ => none
  | fuel + 1, bs, acc =>
    match bs with
    | [] => none
    | b :: tl =>
      if b = 34 then some (acc.reverse, tl)
      else if b = 92 then
        match tl with
        | [] => none
        | e :: tl2 =>
          if e = 34 then parseStrAux fuel tl2 ('"' :: acc)
          else if e = 92 then parseStrAux fuel tl2 ('\\' :: acc)
          else if e = 47 then parseStrAux fuel tl2 ('/' :: acc)
          else if e = 98 then parseStrAux fuel tl2 (Char.ofNat 8 :: acc)
          else if e = 102 then parseStrAux fuel tl2 (Char.ofNat 12 :: acc)
          else if e = 110 then parseStrAux fuel tl2 (Char.ofNat 10 :: acc)
          else if e = 114 then parseStrAux fuel tl2 (Char.ofNat 13 :: acc)
          else if e = 116 then parseStrAux fuel tl2 (Char.ofNat 9 :: acc)
          else if e = 117 then
            match parse4Hex tl2 with
            | none => none
            | some (v, r2) =>
              if 55296 ≤ v ∧ v < 56320 then
                match r2 with
                | 92 :: 117 :: r3 =>
                  match parse4Hex r3 with
                  | none => none
                  | some (w, r4) =>
                    if 56320 ≤ w ∧ w < 57344 then
                      parseStrAux fuel r4
                        (Char.ofNat (65536 + (v - 55296) * 1024 + (w - 56320)) :: acc)
                    else none
                | _ => none
              else if 56320 ≤ v ∧ v < 57344 then none
              else parseStrAux fuel r2 (Char.ofNat v :: acc)
          else none
      else if b < 32 then none
      else if b < 127 then parseStrAux fuel tl (Char.ofNat b :: acc)
      else none

def parseVal (bs : List Nat) : Option (JVal × List Nat) :=
  match bs with
  | [] => none
  | b :: tl =>
    if b = 34 then
      match parseStrAux (tl.length + 1) tl [] with
      | some (s, r) => some (.str s, r)
      | none => none
    else
      match parseInt (b :: tl) with
      | some (i, r) => some (.num i, r)
      | none => none

def parsePairsAux : Nat → List Nat → Fields → Option (Fields × List Nat)
  | 0, _, _ => none
  | fuel + 1, bs, acc =>
    match bs with
    | [] => none
    | b :: tl =>
      if b = 34 then
        match parseStrAux (tl.length + 1) tl [] with
        | none => none
        | some (k, r1) =>
          match r1 with
          | 58 :: 32 :: r2 =>
            match parseVal r2 with
            | none => none
            | some (v, r3) =>
              match r3 with
              | 125 :: r4 => some (acc ++ [(k, v)], r4)
              | 44 :: 32 :: r4 => parsePairsAux fuel r4 (acc ++ [(k, v)])
              | _ => none
          | _ => none
      else none

/-- The JSON documents the model distinguishes: an object (a Python dict)
and the document `null`, which `json.loads` turns into Python `None` — the
one non-object document that matters to `read_header`'s `None` outcome.
`json.loads` also accepts top-level strings, numbers, booleans and arrays;
all of those load to values other than `None`, and the model does not
distinguish them from parse failures (no claim theorem depends on inputs of
those shapes, and no such document can produce the `None` outcome on either
side). -/
inductive JDoc where
  | obj (fields : Fields)
  | jnull
deriving DecidableEq

/-- JSON whitespace, skipped by `json.loads` around the document. -/
def isJsonWS (b : Nat) : Bool := b = 32 || b = 9 || b = 10 || b = 13

/-- Model of `json.loads` for object documents in the layout produced by
`json.dumps` and for the document `null`; whitespace around the document is
skipped and the whole input must be consumed. -/
def jsonParse (bs : List Nat) : Option JDoc :=
  match bs.dropWhile isJsonWS with
  | 110 :: 117 :: 108 :: 108 :: rest =>
    if rest.dropWhile isJsonWS = [] then some .jnull else none
  | 123 :: 125 :: rest =>
    if rest.dropWhile isJsonWS = [] then some (.obj []) else none
  | 123 :: rest =>
    match parsePairsAux (rest.length + 1) rest [] with
    | some (f, r) => if r.dropWhile isJsonWS = [] then some (.obj f) else none
    | none => none
  | _ => none

structure Header where
  status : Int
  contentLength : Int
  encoding : List Char
  filename : Option (List Char)
deriving DecidableEq

def kStatus : List Char := "status".toList
def kContentLength : List Char := "content-length".toList
def kEncoding : List Char := "encoding".toList
def kFilename : List Char := "filename".toList
def kMethod : List Char := "method".toList

/-- The dict built by `Server.generate_header` (lines 92-98): fields in
insertion order, with `filename` included only when truthy (present and
non-empty), mirroring `if filename:`. -/
def headerFields (h : Header) : Fields :=
  [(kStatus, .num h.status), (kContentLength, .num h.contentLength),
   (kEncoding, .str h.encoding)] ++
  (match h.filename with
   | some f => if f = [] then [] else [(kFilename, .str f)]
   | none => [])

/-- Modelled from the spec's words (§3, §8 round-trip property): the field
table H itself, with a `filename` entry exactly when the field is present.
Used to state `decode(encode(H)) == H` literally and compare it against what
the source's encoder actually emits (`headerFields`). -/
def specTable (h : Header) : Fields :=
  [(kStatus, .num h.status), (kContentLength, .num h.contentLength),
   (kEncoding, .str h.encoding)] ++
  (match h.filename with
   | some f => [(kFilename, .str f)]
   | none => [])

/-- `struct.pack` with format `>H`: two big-endian bytes; raises
`struct.error` outside `0..65535`. -/
def packU16 (n : Nat) : PyResult (List Nat) :=
  if n < 65536 then .ok [n / 256, n % 256] else .exn .structError

/-- `struct.unpack('>H', b)`: requires a buffer of exactly 2 bytes. -/
def unpackU16 : List Nat → Option Nat
  | [a, b] => some (a * 256 + b)
  | _ => none

/-- `Server.generate_header` (lines 86-101). -/
def generate_header (h : Header) : PyResult (List Nat) :=
  let body := dumpsFields (headerFields h)
  match packU16 body.length with
  | .ok pfx => .ok (pfx ++ body)
  | .exn e => .exn e

/-! ### Sockets and stream reading -/

/-- A TCP receive stream: the queue of deliveries available to `recv`. -/
abbrev NetStream := List (List Nat)

def BUFFER_SIZE : Nat := 65535

/-- `sock.recv n`: up to `n` bytes from the first pending delivery; the
unread remainder of that delivery stays buffered.  An empty result models
the peer having closed the connection. -/
def recvStream : NetStream → Nat → List Nat × NetStream
  | [], _ => ([], [])
  | c :: rest, n => (c.take n, if c.length ≤ n then rest else c.drop n :: rest)

def read_from_socket_aux : Nat → NetStream → Nat → List Nat → List Nat × NetStream
  | 0, s, _, acc => (acc, s)
  | fuel + 1, s, size, acc =>
    if acc.length < size then
      match recvStream s (size - acc.length) with
      | (pkt, s') =>
        if pkt = [] then (acc, s')
        else read_from_socket_aux fuel s' size (acc ++ pkt)
    else (acc, s)

/-- `Server.read_from_socket` (lines 67-75): loop until `size` bytes are
collected or the peer closes.  Fuel `size + 1` suffices: every iteration
that continues adds at least one byte. -/
def read_from_socket (s : NetStream) (size : Nat) : List Nat × NetStream :=
  read_from_socket_aux (size + 1) s size []

/-- `Server.read_header` (lines 77-84).  The length-prefix read is a single
unlooped `recv(2)`, and only `struct.error` is caught (yielding `None`); a
`json.loads` failure propagates as an uncaught exception.  A body that is
the JSON document `null` loads to Python `None`, which `return
json.loads(data)` passes through — indistinguishable to the caller from the
caught-`struct.error` `None`. -/
def read_header (s : NetStream) : PyResult (Option Fields) × NetStream :=
  let (pkt, s1) := recvStream s 2
  match unpackU16 pkt with
  | none => (.ok none, s1)
  | some size =>
    let (data, s2) := read_from_socket s1 size
    match jsonParse data with
    | some (.obj f) => (.ok (some f), s2)
    | some .jnull => (.ok none, s2)
    | none => (.exn .jsonDecodeError, s2)

/-! ### Filesystem and the three handlers -/

def utf8EncodeChar (c : Char) : List Nat :=
  let n := c.toNat
  if n < 128 then [n]
  else if n < 2048 then [192 + n / 64, 128 + n % 64]
  else if n < 65536 then [224 + n / 4096, 128 + n / 64 % 64, 128 + n % 64]
  else [240 + n / 262144, 128 + n / 4096 % 64, 128 + n / 64 % 64, 128 + n % 64]

def utf8Encode : List Char → List Nat
  | [] => []
  | c :: cs => utf8EncodeChar c ++ utf8Encode cs

def statusOK : Int := 0
def statusERROR : Int := 1

/-- The server's working directory: regular files with contents, and other
directory entries (subdirectories etc.). -/
structure FS where
  files : List (List Char × List Nat)
  dirs : List (List Char)
deriving DecidableEq

/-- `os.path.isfile`. -/
def FS.isfile (fs : FS) (n : List Char) : Bool := (fs.files.lookup n).isSome

/-- `os.path.exists`: true for any directory entry. -/
def FS.existsEntry (fs : FS) (n : List Char) : Bool :=
  fs.isfile n || fs.dirs.contains n

def FS.insertFile (fs : FS) (n : List Char) (content : List Nat) : FS :=
  ⟨(n, content) :: fs.files, fs.dirs⟩

/-- Result of one handler run: filesystem afterwards, the sequence of
`sendall` payloads, and the unread remainder of the receive stream. -/
structure HandlerOut where
  fs : FS
  sent : List (List Nat)
  rest : NetStream
deriving DecidableEq

def utf8Chars : List Char := "utf-8".toList
def binaryChars : List Char := "binary".toList

/-- `Server.send_error_msg` (lines 103-113): one `sendall` of header plus
UTF-8 payload.  (The `sendall` itself is wrapped in try/except in the
source; the reliable-socket model never takes that branch.) -/
def send_error_msg (msg : List Char) : PyResult (List Nat) :=
  let payload := utf8Encode msg
  match generate_header ⟨statusERROR, (payload.length : Int), utf8Chars, none⟩ with
  | .ok w => .ok (w ++ payload)
  | .exn e => .exn e

def fileExistsMsg (name : List Char) : List Char :=
  "File Exists: \"".toList ++ name ++ ['"']

def fileNotFoundMsg (name : List Char) : List Char :=
  "File not found \"".toList ++ name ++ ['"']

def badRequestMsg : List Char :=
  "send request with a header, see documentation.".toList

def joinNewline : List (List Nat) → List Nat
  | [] => []
  | [x] => x
  | x :: xs => x ++ 10 :: joinNewline xs

def fileChunksAux : Nat → List Nat → List (List Nat)
  | 0, _ => []
  | fuel + 1, content =>
    if content = [] then []
    else content.take BUFFER_SIZE :: fileChunksAux fuel (content.drop BUFFER_SIZE)

/-- The GET streaming loop (lines 137-148): the file is sent in chunks of at
most `BUFFER_SIZE` bytes. -/
def fileChunks (content : List Nat) : List (List Nat) :=
  fileChunksAux (content.length + 1) content

/-- Python `str(x)` for the values `header.get('filename')` can produce:
`str(None) = "None"`. -/
def pyStr : Option JVal → List Char
  | none => "None".toList
  | some (.str s) => s
  | some (.num i) => (intToBytes i).map Char.ofNat

/-- `Server.list_handler` (lines 116-126). -/
def list_handler (fs : FS) (s : NetStream) : PyResult HandlerOut :=
  let data := joinNewline (fs.files.map (fun kv => utf8Encode kv.1))
  match generate_header ⟨statusOK, (data.length : Int), utf8Chars, none⟩ with
  | .ok w => .ok ⟨fs, [w ++ data], s⟩
  | .exn e => .exn e

/-- `Server.get_handler` (lines 128-154); note the `str(...)` wrapper around
the possibly-missing filename field.  Socket sends are modelled reliable, so
the `ConnectionResetError` branch is not taken. -/
def get_handler (fs : FS) (s : NetStream) (hdr : Fields) : PyResult HandlerOut :=
  let filename := secure_filename (pyStr (hdr.lookup kFilename))
  match fs.files.lookup filename with
  | some content =>
    match generate_header ⟨statusOK, (content.length : Int), binaryChars,
        some filename⟩ with
    | .ok w => .ok ⟨fs, w :: fileChunks content, s⟩
    | .exn e => .exn e
  | none =>
    match send_error_msg (fileNotFoundMsg filename) with
    | .ok w => .ok ⟨fs, [w], s⟩
    | .exn e => .exn e

def putRecvLoopAux : Nat → NetStream → Int → Int → List Nat → List Nat × NetStream
  | 0, s, _, _, acc => (acc, s)
  | fuel + 1, s, k, n, acc =>
    if n < k then
      match recvStream s BUFFER_SIZE with
      | (pkt, s') =>
        if pkt = [] then (acc, s')
        else putRecvLoopAux fuel s' k (n + pkt.length) (acc ++ pkt)
    else (acc, s)

/-- The PUT receive loop (lines 175-181): `recv(BUFFER_SIZE)` — not clamped
to the number of bytes still owed — while fewer than `content-length` bytes
have been written.  Fuel: every continuing iteration consumes at least one
byte of the stream. -/
def putRecvLoop (s : NetStream) (k : Int) : List Nat × NetStream :=
  putRecvLoopAux (s.flatten.length + 1) s k 0 []

/-- `Server.put_handler` (lines 156-183).  `header.get('filename')` is passed
to `secure_filename` without `str(...)`: a missing or non-string field raises
`AttributeError`.  A non-int `content-length` (after the `== 0` test) raises
`TypeError` at `n < content_len`; `open('', 'wb')` raises
`FileNotFoundError`.  (The model does not track filesystem side effects on
exception paths: in the `TypeError` case the source has already opened the
file, leaving an empty one behind.) -/
def put_handler (fs : FS) (s : NetStream) (hdr : Fields) : PyResult HandlerOut :=
  match hdr.lookup kFilename with
  | some (.str f) =>
    let filename := secure_filename f
    if fs.existsEntry filename then
      match send_error_msg (fileExistsMsg filename) with
      | .ok w => .ok ⟨fs, [w], s⟩
      | .exn e => .exn e
    else
      match generate_header ⟨statusOK, 0, utf8Chars, none⟩ with
      | .exn e => .exn e
      | .ok ack =>
        match hdr.lookup kContentLength with
        | some (.num k) =>
          if k = 0 then .ok ⟨fs, [ack], s⟩
          else if filename = [] then .exn .fileNotFoundError
          else
            let (content, s') := putRecvLoop s k
            .ok ⟨fs.insertFile filename content, [ack], s'⟩
        | _ => .exn .typeError
  | _ => .exn .attributeError

/-- The per-connection body of `Server.run` (lines 209-229): decode one
frame; a falsy header (`None` from a caught `struct.error`, or an empty
dict) gets the generic error reply; otherwise dispatch on `method`; an
unknown method is only logged.  Any exception raised in a handler (or by
`json.loads`) propagates. -/
def handleConnection (fs : FS) (s : NetStream) : PyResult (FS × List (List Nat)) :=
  match read_header s with
  | (.exn e, _) => .exn e
  | (.ok none, _) =>
    match send_error_msg badRequestMsg with
    | .ok w => .ok (fs, [w])
    | .exn e => .exn e
  | (.ok (some hdr), s1) =>
    if hdr = [] then
      match send_error_msg badRequestMsg with
      | .ok w => .ok (fs, [w])
      | .exn e => .exn e
    else
      match hdr.lookup kMethod with
      | some (.str m) =>
        if m = "LIST".toList then (list_handler fs s1).map (fun o => (o.fs, o.sent))
        else if m = "GET".toList then (get_handler fs s1 hdr).map (fun o => (o.fs, o.sent))
        else if m = "PUT".toList then (put_handler fs s1 hdr).map (fun o => (o.fs, o.sent))
        else .ok (fs, [])
      | _ => .ok (fs, [])

/-- The accept loop of `Server.run`: connections are processed sequentially;
only `KeyboardInterrupt` is caught, so any other exception escaping a
connection's handling terminates the loop. -/
def runConnections : FS → List NetStream → PyResult FS
  | fs, [] => .ok fs
  | fs, s :: rest =>
    match handleConnection fs s with
    | .ok (fs', _) => runConnections fs' rest
    | .exn e => .exn e

/-- Reference characterisation of the PUT receive loop for streams whose
chunks are non-empty and at most `BUFFER_SIZE` long: whole chunks are
consumed while fewer than `k` bytes have been received so far. -/
def chunksUpTo : Int → NetStream → List Nat × NetStream
  | _, [] => ([], [])
  | k, c :: rest =>
    if 0 < k then
      let (d, r) := chunksUpTo (k - c.length) rest
      (c ++ d, r)
    else ([], c :: rest)

/-- The next input byte (if any) is not a decimal digit — where a JSON number
literal ends. -/
def nonDigitHead : List Nat → Prop
  | [] => True
  | b :: _ => isDigitByte b = false

/-! #### Sanitizer lemmas -/

theorem mem_dropWhile {p : Char → Bool} {c : Char} :
    ∀ {l : List Char}, c ∈ l.dropWhile p → c ∈ l := by
  intro l h
  induction l with
  | nil => simp [List.dropWhile] at h
  | cons a t ih =>
    rw [List.dropWhile] at h
    by_cases hp : p a
    · simp only [hp] at h
      exact List.mem_cons_of_mem _ (ih h)
    · simp only [hp] at h
      simpa using h

theorem mem_pyStrip {c : Char} {s : List Char} (h : c ∈ pyStrip s) : c ∈ s := by
  unfold pyStrip at h
  rw [List.mem_reverse] at h
  have h2 := mem_dropWhile h
  rw [List.mem_reverse] at h2
  exact mem_dropWhile h2

theorem mem_pyJoinUnderscore {c : Char} :
    ∀ {ps : List (List Char)}, c ∈ pyJoinUnderscore ps →
      c = '_' ∨ ∃ p ∈ ps, c ∈ p := by
  intro ps h
  induction ps with
  | nil => simp [pyJoinUnderscore] at h
  | cons p rest ih =>
    cases rest with
    | nil =>
      simp only [pyJoinUnderscore] at h
      exact Or.inr ⟨p, List.mem_cons_self _ _, h⟩
    | cons q rest' =>
      simp only [pyJoinUnderscore, List.mem_append, List.mem_cons] at h
      rcases h with h | h | h
      · exact Or.inr ⟨p, List.mem_cons_self _ _, h⟩
      · exact Or.inl h
      · rcases ih h with h' | ⟨r, hr, hc⟩
        · exact Or.inl h'
        · exact Or.inr ⟨r, List.mem_cons_of_mem _ hr, hc⟩

theorem mem_pySplitAux {c : Char} :
    ∀ (l acc : List Char), (∀ a ∈ acc, isPySpace a = false) →
      ∀ (p : List Char), p ∈ pySplitAux l acc → c ∈ p →
      (c ∈ l ∨ c ∈ acc) ∧ isPySpace c = false := by
  intro l
  induction l with
  | nil =>
    intro acc hacc p hp hc
    simp only [pySplitAux] at hp
    split at hp
    · simp at hp
    · simp only [List.mem_singleton] at hp
      subst hp
      rw [List.mem_reverse] at hc
      exact ⟨Or.inr hc, hacc c hc⟩
  | cons a t ih =>
    intro acc hacc p hp hc
    simp only [pySplitAux] at hp
    by_cases hsp : isPySpace a
    · simp only [hsp, if_true] at hp
      split at hp
      · rcases ih [] (by simp) p hp hc with ⟨hm | hm, hns⟩
        · exact ⟨Or.inl (List.mem_cons_of_mem _ hm), hns⟩
        · simp at hm
      · rcases List.mem_cons.mp hp with h | h
        · subst h
          rw [List.mem_reverse] at hc
          exact ⟨Or.inr hc, hacc c hc⟩
        · rcases ih [] (by simp) p h hc with ⟨hm | hm, hns⟩
          · exact ⟨Or.inl (List.mem_cons_of_mem _ hm), hns⟩
          · simp at hm
    · simp only [hsp, if_false] at hp
      have hacc' : ∀ x ∈ a :: acc, isPySpace x = false := by
        intro x hx
        rcases List.mem_cons.mp hx with h | h
        · subst h; simpa using hsp
        · exact hacc x h
      rcases ih (a :: acc) hacc' p hp hc with ⟨hm | hm, hns⟩
      · exact ⟨Or.inl (List.mem_cons_of_mem _ hm), hns⟩
      · rcases List.mem_cons.mp hm with h | h
        · subst h; exact ⟨Or.inl (List.mem_cons_self _ _), hns⟩
        · exact ⟨Or.inr h, hns⟩

theorem mem_secure_filename {c : Char} {s : List Char}
    (h : c ∈ secure_filename s) :
    c = '_' ∨ (c ∈ pyReplaceSlash s ∧ isPySpace c = false) := by
  unfold secure_filename at h
  have hj := mem_pyStrip h
  rcases mem_pyJoinUnderscore hj with h' | ⟨p, hp, hc⟩
  · exact Or.inl h'
  · rcases mem_pySplitAux (pyReplaceSlash s) [] (by simp) p hp hc with ⟨hm | hm, hns⟩
    · exact Or.inr ⟨hm, hns⟩
    · simp at hm

theorem secure_filename_no_slash {c : Char} {s : List Char}
    (h : c ∈ secure_filename s) : c ≠ '/' := by
  rcases mem_secure_filename h with h' | ⟨hm, _⟩
  · subst h'; decide
  · unfold pyReplaceSlash at hm
    rcases List.mem_map.mp hm with ⟨a, _, ha⟩
    by_cases h7 : a = '/'
    · simp only [h7, if_true] at ha
      subst ha; decide
    · simp only [h7, if_false] at ha
      subst ha; exact h7

theorem secure_filename_no_space {c : Char} {s : List Char}
    (h : c ∈ secure_filename s) : isPySpace c = false := by
  rcases mem_secure_filename h with h' | ⟨_, hns⟩
  · subst h'; decide
  · exact hns

theorem not_mem_contains_false {c : Char} :
    ∀ {l : List Char}, c ∉ l → l.contains c = false := by
  intro l h
  induction l with
  | nil => rfl
  | cons a t ih =>
    have hne : c ≠ a := fun he => h (he ▸ List.mem_cons_self _ _)
    have hnm : c ∉ t := fun hm => h (List.mem_cons_of_mem _ hm)
    simp only [List.contains, List.elem_cons]
    split
    · rename_i hbeq
      exact absurd (eq_of_beq hbeq) hne
    · exact ih hnm

theorem dropWhile_head_false (p : Char → Bool) :
    ∀ l : List Char, l.dropWhile p = [] ∨
      ∃ c cs, l.dropWhile p = c :: cs ∧ p c = false := by
  intro l
  induction l with
  | nil => exact Or.inl rfl
  | cons a t ih =>
    rw [List.dropWhile]
    by_cases hp : p a
    · simpa [hp] using ih
    · exact Or.inr ⟨a, t, by simp [hp], by simpa using hp⟩

theorem dropWhile_suffix_decomp (p : Char → Bool) :
    ∀ l : List Char, ∃ t, t ++ l.dropWhile p = l := by
  intro l
  induction l with
  | nil => exact ⟨[], rfl⟩
  | cons a t ih =>
    by_cases hp : p a
    · rcases ih with ⟨u, hu⟩
      exact ⟨a :: u, by simp [List.dropWhile, hp, hu]⟩
    · exact ⟨[], by simp [List.dropWhile, hp]⟩

theorem dropWhile_eq_self_of_head_false {p : Char → Bool} {l : List Char}
    (h : l = [] ∨ ∃ c cs, l = c :: cs ∧ p c = false) : l.dropWhile p = l := by
  rcases h with h | ⟨c, cs, h, hc⟩
  · subst h; rfl
  · subst h; simp [List.dropWhile, hc]

theorem pyStrip_of_stripped {l : List Char}
    (h1 : l = [] ∨ ∃ c cs, l = c :: cs ∧ isStripSet c = false)
    (h2 : l.reverse = [] ∨ ∃ c cs, l.reverse = c :: cs ∧ isStripSet c = false) :
    pyStrip l = l := by
  unfold pyStrip
  rw [dropWhile_eq_self_of_head_false h1, dropWhile_eq_self_of_head_false h2,
    List.reverse_reverse]

theorem pyStrip_idem (s : List Char) : pyStrip (pyStrip s) = pyStrip s := by
  by_cases ht : pyStrip s = []
  · rw [ht]; rfl
  · have hd2 : (pyStrip s).reverse =
        (s.dropWhile isStripSet).reverse.dropWhile isStripSet := by
      unfold pyStrip; rw [List.reverse_reverse]
    have hheadD2 : ∃ c cs,
        (pyStrip s).reverse = c :: cs ∧ isStripSet c = false := by
      rw [hd2]
      rcases dropWhile_head_false isStripSet (s.dropWhile isStripSet).reverse with h | h
      · exfalso
        apply ht
        unfold pyStrip
        rw [h]
        rfl
      · exact h
    obtain ⟨pre, hpre⟩ :=
      dropWhile_suffix_decomp isStripSet (s.dropWhile isStripSet).reverse
    have hd1 : pyStrip s ++ pre.reverse = s.dropWhile isStripSet := by
      have h1 := congrArg List.reverse hpre
      rw [List.reverse_append, List.reverse_reverse] at h1
      calc pyStrip s ++ pre.reverse
          = ((s.dropWhile isStripSet).reverse.dropWhile isStripSet).reverse
              ++ pre.reverse := rfl
        _ = s.dropWhile isStripSet := h1
    have hheadT : ∃ c cs, pyStrip s = c :: cs ∧ isStripSet c = false := by
      obtain ⟨c, cs, hcs⟩ := List.exists_cons_of_ne_nil ht
      refine ⟨c, cs, hcs, ?_⟩
      rcases dropWhile_head_false isStripSet s with h | ⟨c', cs', hc', hpc'⟩
      · rw [h] at hd1
        simp [hcs] at hd1
      · rw [hc', hcs] at hd1
        simp only [List.cons_append] at hd1
        injection hd1 with h1 _
        rwa [h1]
    exact pyStrip_of_stripped (Or.inr hheadT) (Or.inr hheadD2)

theorem map_eq_self_of_fixed {f : Char → Char} :
    ∀ {l : List Char}, (∀ c ∈ l, f c = c) → l.map f = l := by
  intro l h
  induction l with
  | nil => rfl
  | cons a t ih =>
    simp only [List.map_cons]
    rw [h a (List.mem_cons_self _ _), ih (fun c hc => h c (List.mem_cons_of_mem _ hc))]

theorem pySplitAux_no_space :
    ∀ (l acc : List Char), (∀ c ∈ l, isPySpace c = false) →
      pySplitAux l acc = if acc = [] ∧ l = [] then [] else [acc.reverse ++ l] := by
  intro l
  induction l with
  | nil =>
    intro acc _
    by_cases ha : acc = [] <;> simp [pySplitAux, ha]
  | cons a t ih =>
    intro acc h
    have ha : isPySpace a = false := h a (List.mem_cons_self _ _)
    have ht : ∀ c ∈ t, isPySpace c = false :=
      fun c hc => h c (List.mem_cons_of_mem _ hc)
    simp only [pySplitAux, ha, Bool.false_eq_true, if_false]
    rw [ih (a :: acc) ht]
    simp

theorem secure_filename_contains_slash_false (s : List Char) :
    (secure_filename s).contains '/' = false :=
  not_mem_contains_false (fun h => secure_filename_no_slash h rfl)


/-! ### Number printing and parsing invert each other -/

theorem natToBytesAux_irrel :
    ∀ (f1 f2 n : Nat) (acc : List Nat), n ≤ f1 → n ≤ f2 →
      natToBytesAux f1 n acc = natToBytesAux f2 n acc := by
  intro f1
  induction f1 with
  | zero =>
    intro f2 n acc h1 _
    interval_cases n
    cases f2 <;> simp [natToBytesAux]
  | succ g ih =>
    intro f2 n acc h1 h2
    cases f2 with
    | zero =>
      interval_cases n
      simp [natToBytesAux]
    | succ g2 =>
      by_cases hn : n = 0
      · subst hn; simp [natToBytesAux]
      · simp only [natToBytesAux, hn, if_false]
        have hd : n / 10 < n := Nat.div_lt_self (Nat.pos_of_ne_zero hn) (by norm_num)
        exact ih g2 (n / 10) _ (by omega) (by omega)

theorem natToBytesAux_acc :
    ∀ (f n : Nat) (acc : List Nat),
      natToBytesAux f n acc = natToBytesAux f n [] ++ acc := by
  intro f
  induction f with
  | zero => intro n acc; simp [natToBytesAux]
  | succ g ih =>
    intro n acc
    by_cases hn : n = 0
    · subst hn; simp [natToBytesAux]
    · simp only [natToBytesAux, hn, if_false]
      rw [ih (n / 10) (digitByte (n % 10) :: acc),
        ih (n / 10) [digitByte (n % 10)]]
      simp

theorem natToBytesAux_all_digits :
    ∀ (f n : Nat) (acc : List Nat), (∀ b ∈ acc, isDigitByte b = true) →
      ∀ b ∈ natToBytesAux f n acc, isDigitByte b = true := by
  intro f
  induction f with
  | zero => intro n acc hacc; simpa [natToBytesAux] using hacc
  | succ g ih =>
    intro n acc hacc b hb
    by_cases hn : n = 0
    · subst hn; simp [natToBytesAux] at hb; exact hacc b hb
    · simp only [natToBytesAux, hn, if_false] at hb
      refine ih (n / 10) _ ?_ b hb
      intro x hx
      rcases List.mem_cons.mp hx with h | h
      · subst h
        have h10 : n % 10 < 10 := Nat.mod_lt _ (by norm_num)
        simp only [digitByte, isDigitByte]
        simp only [Bool.and_eq_true, decide_eq_true_eq]
        omega
      · exact hacc x h

theorem natToBytes_all_digits (n : Nat) :
    ∀ b ∈ natToBytes n, isDigitByte b = true := by
  unfold natToBytes
  by_cases hn : n = 0
  · subst hn; intro b hb; simp at hb; subst hb; decide
  · simp only [hn, if_false]
    exact natToBytesAux_all_digits n n [] (by simp)

theorem natToBytes_ne_nil (n : Nat) : natToBytes n ≠ [] := by
  unfold natToBytes
  by_cases hn : n = 0
  · subst hn; simp
  · simp only [hn, if_false]
    obtain ⟨g, hg⟩ : ∃ g, n = g + 1 := ⟨n - 1, by omega⟩
    subst hg
    rw [show natToBytesAux (g + 1) (g + 1) []
        = natToBytesAux g ((g + 1) / 10) [digitByte ((g + 1) % 10)] from by
      simp [natToBytesAux]]
    rw [natToBytesAux_acc]
    simp

theorem foldl_natToBytesAux :
    ∀ (f n : Nat), n ≤ f → ∀ (a : Nat),
      (natToBytesAux f n []).foldl (fun x b => x * 10 + (b - 48)) a
        = a * 10 ^ (natToBytesAux f n []).length + n := by
  intro f
  induction f with
  | zero =>
    intro n h a
    interval_cases n
    simp [natToBytesAux]
  | succ g ih =>
    intro n h a
    by_cases hn : n = 0
    · subst hn; simp [natToBytesAux]
    · simp only [natToBytesAux, hn, if_false]
      rw [natToBytesAux_acc]
      rw [List.foldl_append, List.length_append]
      have hd : n / 10 < n := Nat.div_lt_self (Nat.pos_of_ne_zero hn) (by norm_num)
      have hdiv : n / 10 ≤ g := by omega
      rw [ih (n / 10) hdiv a]
      simp only [List.foldl_cons, List.foldl_nil, List.length_cons,
        List.length_nil]
      have hdig : digitByte (n % 10) - 48 = n % 10 := by
        simp [digitByte]
      rw [hdig, pow_succ, ← Nat.mul_assoc]
      generalize a * 10 ^ (natToBytesAux g (n / 10) []).length = q
      omega

theorem foldl_natToBytes (n : Nat) :
    (natToBytes n).foldl (fun x b => x * 10 + (b - 48)) 0 = n := by
  unfold natToBytes
  by_cases hn : n = 0
  · subst hn; simp
  · simp only [hn, if_false]
    rw [foldl_natToBytesAux n n (le_refl n) 0]
    simp

theorem parseDigits_append :
    ∀ (l rest : List Nat) (acc : Nat), (∀ b ∈ l, isDigitByte b = true) →
      nonDigitHead rest →
      parseDigits (l ++ rest) acc
        = (l.foldl (fun x b => x * 10 + (b - 48)) acc, rest) := by
  intro l
  induction l with
  | nil =>
    intro rest acc _ hrest
    cases rest with
    | nil => rfl
    | cons b r =>
      simp only [List.nil_append, List.foldl_nil]
      simp only [nonDigitHead] at hrest
      simp [parseDigits, hrest]
  | cons b t ih =>
    intro rest acc hl hrest
    have hb : isDigitByte b = true := hl b (List.mem_cons_self _ _)
    simp only [List.cons_append, parseDigits, hb, if_true, List.foldl_cons]
    exact ih rest _ (fun x hx => hl x (List.mem_cons_of_mem _ hx)) hrest

theorem parseInt_intToBytes (i : Int) (rest : List Nat) (h : nonDigitHead rest) :
    parseInt (intToBytes i ++ rest) = some (i, rest) := by
  by_cases hneg : i < 0
  · have : intToBytes i = 45 :: natToBytes i.natAbs := by
      simp [intToBytes, hneg]
    rw [this]
    obtain ⟨b, t, hbt⟩ := List.exists_cons_of_ne_nil (natToBytes_ne_nil i.natAbs)
    have hb : isDigitByte b = true := by
      apply natToBytes_all_digits
      rw [hbt]; exact List.mem_cons_self _ _
    simp only [List.cons_append, parseInt, if_pos rfl]
    rw [hbt]
    simp only [List.cons_append, hb, if_true]
    have hpd := parseDigits_append (natToBytes i.natAbs) rest 0
      (natToBytes_all_digits _) h
    rw [hbt] at hpd
    simp only [List.cons_append] at hpd
    rw [hpd]
    have hfold : List.foldl (fun x b => x * 10 + (b - 48)) 0 (b :: t)
        = i.natAbs := by
      rw [← hbt, foldl_natToBytes]
    simp only [hfold]
    have hval : -(i.natAbs : Int) = i := by omega
    rw [hval]
  · have : intToBytes i = natToBytes i.toNat := by
      simp [intToBytes, hneg]
    rw [this]
    obtain ⟨b, t, hbt⟩ := List.exists_cons_of_ne_nil (natToBytes_ne_nil i.toNat)
    have hb : isDigitByte b = true := by
      apply natToBytes_all_digits
      rw [hbt]; exact List.mem_cons_self _ _
    have hb45 : b ≠ 45 := by
      simp only [isDigitByte, Bool.and_eq_true, decide_eq_true_eq] at hb
      omega
    rw [hbt]
    simp only [List.cons_append, parseInt, hb45, if_false, hb, if_true]
    have hpd := parseDigits_append (natToBytes i.toNat) rest 0
      (natToBytes_all_digits _) h
    rw [hbt] at hpd
    simp only [List.cons_append] at hpd
    rw [hpd]
    have hfold : List.foldl (fun x b => x * 10 + (b - 48)) 0 (b :: t)
        = i.toNat := by
      rw [← hbt, foldl_natToBytes]
    simp only [hfold]
    have hval : (i.toNat : Int) = i := by omega
    rw [hval]

theorem parseHexDigit_hexDigitByte {d : Nat} (h : d < 16) :
    parseHexDigit (hexDigitByte d) = some d := by
  interval_cases d <;> rfl

theorem parse4Hex_hex4 {v : Nat} (h : v < 65536) (rest : List Nat) :
    parse4Hex (hex4 v ++ rest) = some (v, rest) := by
  have h1 : v / 4096 % 16 < 16 := Nat.mod_lt _ (by norm_num)
  have h2 : v / 256 % 16 < 16 := Nat.mod_lt _ (by norm_num)
  have h3 : v / 16 % 16 < 16 := Nat.mod_lt _ (by norm_num)
  have h4 : v % 16 < 16 := Nat.mod_lt _ (by norm_num)
  simp only [hex4, List.cons_append, List.nil_append, parse4Hex,
    parseHexDigit_hexDigitByte h1, parseHexDigit_hexDigitByte h2,
    parseHexDigit_hexDigitByte h3, parseHexDigit_hexDigitByte h4]
  congr 1
  congr 1
  omega

/-! ### String escaping and the string scanner invert each other -/

theorem char_toNat_valid (c : Char) :
    c.toNat < 55296 ∨ (57344 ≤ c.toNat ∧ c.toNat < 1114112) := by
  have h := c.valid
  simp only [UInt32.isValidChar, Nat.isValidChar] at h
  rcases h with h | ⟨h1, h2⟩
  · exact Or.inl h
  · exact Or.inr ⟨h1, h2⟩

theorem char_eq_of_toNat (c : Char) {n : Nat} (h : c.toNat = n) :
    c = Char.ofNat n := by
  rw [← h, Char.ofNat_toNat]

set_option maxHeartbeats 1000000 in
theorem escapeChar_length_pos (c : Char) : 1 ≤ (escapeChar c).length := by
  unfold escapeChar
  dsimp only
  split_ifs <;> simp [hex4]

theorem escapeStr_length_ge : ∀ s : List Char, s.length ≤ (escapeStr s).length := by
  intro s
  induction s with
  | nil => simp [escapeStr]
  | cons c cs ih =>
    simp only [escapeStr, List.length_append, List.length_cons]
    have := escapeChar_length_pos c
    omega

theorem parseStrAux_step_quote (g : Nat) (bs : List Nat) (acc : List Char) :
    parseStrAux (g + 1) (92 :: 34 :: bs) acc = parseStrAux g bs ('"' :: acc) := by
  simp [parseStrAux]

theorem parseStrAux_step_backslash (g : Nat) (bs : List Nat) (acc : List Char) :
    parseStrAux (g + 1) (92 :: 92 :: bs) acc = parseStrAux g bs ('\\' :: acc) := by
  simp [parseStrAux]

theorem parseStrAux_step_b (g : Nat) (bs : List Nat) (acc : List Char) :
    parseStrAux (g + 1) (92 :: 98 :: bs) acc
      = parseStrAux g bs (Char.ofNat 8 :: acc) := by
  simp [parseStrAux]

theorem parseStrAux_step_f (g : Nat) (bs : List Nat) (acc : List Char) :
    parseStrAux (g + 1) (92 :: 102 :: bs) acc
      = parseStrAux g bs (Char.ofNat 12 :: acc) := by
  simp [parseStrAux]

theorem parseStrAux_step_n (g : Nat) (bs : List Nat) (acc : List Char) :
    parseStrAux (g + 1) (92 :: 110 :: bs) acc
      = parseStrAux g bs (Char.ofNat 10 :: acc) := by
  simp [parseStrAux]

theorem parseStrAux_step_r (g : Nat) (bs : List Nat) (acc : List Char) :
    parseStrAux (g + 1) (92 :: 114 :: bs) acc
      = parseStrAux g bs (Char.ofNat 13 :: acc) := by
  simp [parseStrAux]

theorem parseStrAux_step_t (g : Nat) (bs : List Nat) (acc : List Char) :
    parseStrAux (g + 1) (92 :: 116 :: bs) acc
      = parseStrAux g bs (Char.ofNat 9 :: acc) := by
  simp [parseStrAux]

theorem parseStrAux_step_plain (g b : Nat) (bs : List Nat) (acc : List Char)
    (h34 : ¬b = 34) (h92 : ¬b = 92) (h32 : ¬b < 32) (h127 : b < 127) :
    parseStrAux (g + 1) (b :: bs) acc = parseStrAux g bs (Char.ofNat b :: acc) := by
  simp only [parseStrAux]
  rw [if_neg h34, if_neg h92, if_neg h32, if_pos h127]

theorem parseStrAux_step_u (g v : Nat) (bs : List Nat) (acc : List Char)
    (hv : v < 65536) (h1 : ¬(55296 ≤ v ∧ v < 56320))
    (h2 : ¬(56320 ≤ v ∧ v < 57344)) :
    parseStrAux (g + 1) (92 :: 117 :: (hex4 v ++ bs)) acc
      = parseStrAux g bs (Char.ofNat v :: acc) := by
  simp only [parseStrAux]
  norm_num
  rw [parse4Hex_hex4 hv]
  dsimp only
  rw [if_neg h1, if_neg h2]

theorem parseStrAux_step_surrogate (g v w : Nat) (bs : List Nat) (acc : List Char)
    (hv : v < 65536) (hw : w < 65536)
    (hhi1 : 55296 ≤ v) (hhi2 : v < 56320) (hlo1 : 56320 ≤ w) (hlo2 : w < 57344) :
    parseStrAux (g + 1) (92 :: 117 :: (hex4 v ++ (92 :: 117 :: (hex4 w ++ bs)))) acc
      = parseStrAux g bs
          (Char.ofNat (65536 + (v - 55296) * 1024 + (w - 56320)) :: acc) := by
  simp only [parseStrAux]
  norm_num
  rw [parse4Hex_hex4 hv]
  dsimp only
  rw [if_pos ⟨hhi1, hhi2⟩]
  rw [parse4Hex_hex4 hw]
  dsimp only
  rw [if_pos ⟨hlo1, hlo2⟩]

/-- The scanner consumes exactly the escape of one character and accumulates
that character. -/
theorem parseStrAux_escapeChar (c : Char) (g : Nat) (bs : List Nat)
    (acc : List Char) :
    parseStrAux (g + 1) (escapeChar c ++ bs) acc = parseStrAux g bs (c :: acc) := by
  by_cases h34 : c.toNat = 34
  · have hc : ('"' : Char) = c := by rw [char_eq_of_toNat c h34]
    rw [show escapeChar c = [92, 34] from by simp [escapeChar, h34]]
    simp only [List.cons_append, List.nil_append]
    rw [parseStrAux_step_quote, hc]
  · by_cases h92 : c.toNat = 92
    · have hc : ('\\' : Char) = c := by rw [char_eq_of_toNat c h92]
      rw [show escapeChar c = [92, 92] from by simp [escapeChar, h34, h92]]
      simp only [List.cons_append, List.nil_append]
      rw [parseStrAux_step_backslash, hc]
    · by_cases h8 : c.toNat = 8
      · have hc : Char.ofNat 8 = c := (char_eq_of_toNat c h8).symm
        rw [show escapeChar c = [92, 98] from by simp [escapeChar, h34, h92, h8]]
        simp only [List.cons_append, List.nil_append]
        rw [parseStrAux_step_b, hc]
      · by_cases h9 : c.toNat = 9
        · have hc : Char.ofNat 9 = c := (char_eq_of_toNat c h9).symm
          rw [show escapeChar c = [92, 116] from by
            simp [escapeChar, h34, h92, h8, h9]]
          simp only [List.cons_append, List.nil_append]
          rw [parseStrAux_step_t, hc]
        · by_cases h10 : c.toNat = 10
          · have hc : Char.ofNat 10 = c := (char_eq_of_toNat c h10).symm
            rw [show escapeChar c = [92, 110] from by
              simp [escapeChar, h34, h92, h8, h9, h10]]
            simp only [List.cons_append, List.nil_append]
            rw [parseStrAux_step_n, hc]
          · by_cases h12 : c.toNat = 12
            · have hc : Char.ofNat 12 = c := (char_eq_of_toNat c h12).symm
              rw [show escapeChar c = [92, 102] from by
                simp [escapeChar, h34, h92, h8, h9, h10, h12]]
              simp only [List.cons_append, List.nil_append]
              rw [parseStrAux_step_f, hc]
            · by_cases h13 : c.toNat = 13
              · have hc : Char.ofNat 13 = c := (char_eq_of_toNat c h13).symm
                rw [show escapeChar c = [92, 114] from by
                  simp [escapeChar, h34, h92, h8, h9, h10, h12, h13]]
                simp only [List.cons_append, List.nil_append]
                rw [parseStrAux_step_r, hc]
              · by_cases hlt32 : c.toNat < 32
                · have hc : Char.ofNat c.toNat = c := Char.ofNat_toNat c
                  rw [show escapeChar c = 92 :: 117 :: hex4 c.toNat from by
                    simp [escapeChar, h34, h92, h8, h9, h10, h12, h13, hlt32]]
                  simp only [List.cons_append, List.append_assoc]
                  rw [parseStrAux_step_u g c.toNat _ acc (by omega) (by omega)
                    (by omega), hc]
                · by_cases hlt127 : c.toNat < 127
                  · have hc : Char.ofNat c.toNat = c := Char.ofNat_toNat c
                    rw [show escapeChar c = [c.toNat] from by
                      simp [escapeChar, h34, h92, h8, h9, h10, h12, h13, hlt32,
                        hlt127]]
                    simp only [List.cons_append, List.nil_append]
                    rw [parseStrAux_step_plain g c.toNat _ acc h34 h92 hlt32
                      hlt127, hc]
                  · by_cases h65536 : c.toNat < 65536
                    · have hval : c.toNat < 55296 ∨ 57344 ≤ c.toNat := by
                        rcases char_toNat_valid c with h | ⟨h1, _⟩
                        · exact Or.inl h
                        · exact Or.inr h1
                      have hc : Char.ofNat c.toNat = c := Char.ofNat_toNat c
                      rw [show escapeChar c = 92 :: 117 :: hex4 c.toNat from by
                        simp [escapeChar, h34, h92, h8, h9, h10, h12, h13, hlt32,
                          hlt127, h65536]]
                      simp only [List.cons_append, List.append_assoc]
                      rw [parseStrAux_step_u g c.toNat _ acc h65536 (by omega)
                        (by omega), hc]
                    · have hval : c.toNat < 1114112 := by
                        rcases char_toNat_valid c with h | ⟨_, h2⟩
                        · omega
                        · exact h2
                      rw [show escapeChar c =
                          (92 :: 117 :: hex4 (55296 + (c.toNat - 65536) / 1024)) ++
                          (92 :: 117 :: hex4 (56320 + (c.toNat - 65536) % 1024))
                        from by
                          simp [escapeChar, h34, h92, h8, h9, h10, h12, h13,
                            hlt32, hlt127, h65536]]
                      have hdivlt : (c.toNat - 65536) / 1024 < 1024 := by
                        have hm : c.toNat - 65536 < 1048576 := by omega
                        omega
                      have hmodlt : (c.toNat - 65536) % 1024 < 1024 :=
                        Nat.mod_lt _ (by norm_num)
                      simp only [List.cons_append, List.append_assoc]
                      rw [parseStrAux_step_surrogate g _ _ _ acc (by omega)
                        (by omega) (by omega) (by omega) (by omega) (by omega)]
                      rw [show 65536 +
                          (55296 + (c.toNat - 65536) / 1024 - 55296) * 1024 +
                          (56320 + (c.toNat - 65536) % 1024 - 56320) = c.toNat
                        from by omega]
                      rw [Char.ofNat_toNat]

/-- Scanning the escaped form of `s` followed by a closing quote yields `s`
(relative to the accumulator) and the bytes after the quote. -/
theorem parseStrAux_escape (s : List Char) :
    ∀ (fuel : Nat) (acc : List Char) (rest : List Nat),
      s.length + 1 ≤ fuel →
      parseStrAux fuel (escapeStr s ++ 34 :: rest) acc
        = some (acc.reverse ++ s, rest) := by
  induction s with
  | nil =>
    intro fuel acc rest hf
    obtain ⟨g, rfl⟩ : ∃ g, fuel = g + 1 := ⟨fuel - 1, by omega⟩
    simp [escapeStr, parseStrAux]
  | cons c cs ih =>
    intro fuel acc rest hf
    obtain ⟨g, rfl⟩ : ∃ g, fuel = g + 1 := ⟨fuel - 1, by omega⟩
    have hg : cs.length + 1 ≤ g := by
      simp only [List.length_cons] at hf
      omega
    rw [escapeStr, List.append_assoc, parseStrAux_escapeChar]
    rw [ih g (c :: acc) rest hg]
    simp

/-! ### Object serialisation and the object parser invert each other -/

theorem nonDigitHead_dumpsTail (F : Fields) :
    nonDigitHead (dumpsTail F ++ [125]) := by
  cases F with
  | nil => simp [dumpsTail, nonDigitHead, isDigitByte]
  | cons kv rest => simp [dumpsTail, nonDigitHead, isDigitByte]

theorem parseVal_dumpVal (v : JVal) (rest : List Nat) (h : nonDigitHead rest) :
    parseVal (dumpVal v ++ rest) = some (v, rest) := by
  cases v with
  | str s =>
    simp only [dumpVal, dumpStr, List.cons_append, List.append_assoc,
      List.nil_append]
    simp only [parseVal, if_pos rfl]
    rw [parseStrAux_escape s _ [] rest (by
      have h1 := escapeStr_length_ge s
      simp only [List.length_append, List.length_cons]
      omega)]
    simp
  | num i =>
    obtain ⟨b, t, hbt, hb34⟩ : ∃ b t, intToBytes i = b :: t ∧ ¬b = 34 := by
      by_cases hneg : i < 0
      · exact ⟨45, natToBytes i.natAbs, by simp [intToBytes, hneg], by norm_num⟩
      · obtain ⟨b, t, hbt⟩ :=
          List.exists_cons_of_ne_nil (natToBytes_ne_nil i.toNat)
        have hd : isDigitByte b = true := by
          apply natToBytes_all_digits
          rw [hbt]
          exact List.mem_cons_self _ _
        simp only [isDigitByte, Bool.and_eq_true, decide_eq_true_eq] at hd
        exact ⟨b, t, by simp [intToBytes, hneg, hbt], by omega⟩
    simp only [dumpVal]
    rw [hbt, List.cons_append]
    simp only [parseVal, if_neg hb34]
    rw [← List.cons_append, ← hbt, parseInt_intToBytes i rest h]

theorem dumpsTail_length_ge (F : Fields) : F.length ≤ (dumpsTail F).length := by
  induction F with
  | nil => simp [dumpsTail]
  | cons kv rest ih =>
    simp only [dumpsTail, List.length_cons, List.length_append]
    omega

theorem parsePairsAux_dumps :
    ∀ (F : Fields) (p : List Char × JVal) (acc : Fields) (fuel : Nat),
      F.length + 1 ≤ fuel →
      parsePairsAux fuel (pairBytes p ++ (dumpsTail F ++ [125])) acc
        = some (acc ++ p :: F, []) := by
  intro F
  induction F with
  | nil =>
    intro p acc fuel hf
    obtain ⟨g, rfl⟩ : ∃ g, fuel = g + 1 := ⟨fuel - 1, by omega⟩
    obtain ⟨k, v⟩ := p
    simp only [pairBytes, dumpStr, dumpsTail, List.nil_append, List.cons_append,
      List.append_assoc]
    simp only [parsePairsAux, if_pos rfl]
    rw [parseStrAux_escape k _ [] _ (by
      have h1 := escapeStr_length_ge k
      simp only [List.length_append, List.length_cons]
      omega)]
    dsimp only
    rw [parseVal_dumpVal v [125] (by simp [nonDigitHead, isDigitByte])]
    simp

  | cons q F'' ih =>
    intro p acc fuel hf
    obtain ⟨g, rfl⟩ : ∃ g, fuel = g + 1 := ⟨fuel - 1, by omega⟩
    obtain ⟨k, v⟩ := p
    have hg : F''.length + 1 ≤ g := by
      simp only [List.length_cons] at hf
      omega
    simp only [pairBytes, dumpStr, dumpsTail, List.nil_append, List.cons_append,
      List.append_assoc]
    simp only [parsePairsAux, if_pos rfl, if_true]
    rw [parseStrAux_escape k _ [] _ (by
      have h1 := escapeStr_length_ge k
      simp only [List.length_append, List.length_cons]
      omega)]
    dsimp only
    simp only [List.reverse_nil, List.nil_append]
    rw [parseVal_dumpVal v _ (by simp [nonDigitHead, isDigitByte])]
    dsimp only
    rw [show (34 :: (escapeStr q.1 ++
          34 :: 58 :: 32 :: (dumpVal q.2 ++ (dumpsTail F'' ++ [125]))))
        = pairBytes q ++ (dumpsTail F'' ++ [125]) from by
      simp [pairBytes, dumpStr]]
    rw [ih q (acc ++ [(k, v)]) g hg]
    simp

theorem dumpsFields_ne_nil (F : Fields) : dumpsFields F ≠ [] := by
  cases F <;> simp [dumpsFields]

theorem dropWhile_jsonWS_123 (X : List Nat) :
    (123 :: X).dropWhile isJsonWS = 123 :: X := by
  rw [List.dropWhile_cons]
  norm_num [isJsonWS]

theorem jsonParse_dumpsFields (F : Fields) :
    jsonParse (dumpsFields F) = some (.obj F) := by
  cases F with
  | nil => rfl
  | cons p F' =>
    obtain ⟨k, v⟩ := p
    obtain ⟨t, ht⟩ : ∃ t, pairBytes (k, v) = 34 :: t :=
      ⟨(escapeStr k ++ [34]) ++ (58 :: 32 :: dumpVal v), by
        simp [pairBytes, dumpStr]⟩
    rw [show dumpsFields ((k, v) :: F')
        = 123 :: (pairBytes (k, v) ++ (dumpsTail F' ++ [125])) from by
      simp [dumpsFields, List.append_assoc]]
    rw [ht]
    simp only [List.cons_append]
    simp only [jsonParse, dropWhile_jsonWS_123]
    rw [← List.cons_append, ← ht]
    rw [parsePairsAux_dumps F' (k, v) [] _ (by
      have h1 := dumpsTail_length_ge F'
      simp only [List.length_cons, List.length_append]
      omega)]
    simp [List.dropWhile]

/-! ### Stream reading lemmas and the frame round trip -/

theorem take_ne_nil_of_ne_nil {c : List Nat} (hc : c ≠ []) {n : Nat}
    (hn : 0 < n) : c.take n ≠ [] := by
  cases c with
  | nil => exact absurd rfl hc
  | cons x t =>
    cases n with
    | zero => omega
    | succ m => simp [List.take]

theorem read_from_socket_aux_take :
    ∀ (fuel : Nat) (s : NetStream) (size : Nat) (acc : List Nat),
      (∀ c ∈ s, c ≠ []) → size ≤ acc.length + fuel →
      (read_from_socket_aux fuel s size acc).1
        = acc ++ s.flatten.take (size - acc.length) := by
  intro fuel
  induction fuel with
  | zero =>
    intro s size acc _ hsz
    have h0 : size - acc.length = 0 := by omega
    simp [read_from_socket_aux, h0]
  | succ g ih =>
    intro s size acc hne hsz
    simp only [read_from_socket_aux]
    by_cases hlt : acc.length < size
    · rw [if_pos hlt]
      cases s with
      | nil => simp [recvStream]
      | cons c rest =>
        have hc : c ≠ [] := hne c (List.mem_cons_self _ _)
        have hcpos : 1 ≤ c.length := by
          cases c with
          | nil => exact absurd rfl hc
          | cons x t => simp
        have hrest : ∀ x ∈ rest, x ≠ [] :=
          fun x hx => hne x (List.mem_cons_of_mem _ hx)
        have hpkt : c.take (size - acc.length) ≠ [] :=
          take_ne_nil_of_ne_nil hc (by omega)
        simp only [recvStream]
        rw [if_neg (by simpa using hpkt)]
        by_cases hle : c.length ≤ size - acc.length
        · rw [if_pos hle]
          rw [List.take_of_length_le hle]
          rw [ih rest size (acc ++ c) hrest
            (by simp only [List.length_append]; omega)]
          rw [List.flatten_cons, List.take_append_eq_append_take,
            List.take_of_length_le (by omega : c.length ≤ size - acc.length)]
          have harith : size - (acc ++ c).length
              = size - acc.length - c.length := by
            simp only [List.length_append]
            omega
          rw [harith, List.append_assoc]
        · rw [if_neg hle]
          have hlen : (acc ++ c.take (size - acc.length)).length = size := by
            simp only [List.length_append, List.length_take]
            omega
          rw [ih (c.drop (size - acc.length) :: rest) size _
            (by
              intro x hx
              rcases List.mem_cons.mp hx with h | h
              · subst h
                intro hnil
                have hdl := List.length_drop (size - acc.length) c
                rw [hnil] at hdl
                simp only [List.length_nil] at hdl
                omega
              · exact hrest x h)
            (by omega)]
          rw [hlen, Nat.sub_self]
          simp only [List.take_zero, List.append_nil]
          rw [List.flatten_cons, List.take_append_eq_append_take]
          have h0 : size - acc.length - c.length = 0 := by omega
          rw [h0]
          simp [List.append_assoc]
    · rw [if_neg hlt]
      have h0 : size - acc.length = 0 := by omega
      simp [h0]

/-- `read_from_socket` depends only on the concatenation of the deliveries:
it returns the first `size` bytes of the stream (all of it, if shorter). -/
theorem read_from_socket_take (s : NetStream) (size : Nat)
    (h : ∀ c ∈ s, c ≠ []) :
    (read_from_socket s size).1 = s.flatten.take size := by
  unfold read_from_socket
  rw [read_from_socket_aux_take (size + 1) s size [] h (by simp)]
  simp

theorem read_header_generate (h : Header)
    (hlen : (dumpsFields (headerFields h)).length < 65536) :
    ∃ w, generate_header h = .ok w ∧
      (read_header [w]).1 = .ok (some (headerFields h)) := by
  refine ⟨[(dumpsFields (headerFields h)).length / 256,
    (dumpsFields (headerFields h)).length % 256]
      ++ dumpsFields (headerFields h), ?_, ?_⟩
  · simp [generate_header, packU16, hlen]
  · obtain ⟨c0, cs0, hb0⟩ :=
      List.exists_cons_of_ne_nil (dumpsFields_ne_nil (headerFields h))
    simp only [read_header]
    rw [show recvStream [[(dumpsFields (headerFields h)).length / 256,
        (dumpsFields (headerFields h)).length % 256]
          ++ dumpsFields (headerFields h)] 2
        = ([(dumpsFields (headerFields h)).length / 256,
            (dumpsFields (headerFields h)).length % 256],
           [dumpsFields (headerFields h)]) from by
      simp [recvStream, hb0, List.take, List.drop]]
    dsimp only
    simp only [unpackU16]
    rw [show (dumpsFields (headerFields h)).length / 256 * 256
        + (dumpsFields (headerFields h)).length % 256
        = (dumpsFields (headerFields h)).length from by omega]
    rw [show read_from_socket [dumpsFields (headerFields h)]
          (dumpsFields (headerFields h)).length
        = ((read_from_socket [dumpsFields (headerFields h)]
            (dumpsFields (headerFields h)).length).1,
           (read_from_socket [dumpsFields (headerFields h)]
            (dumpsFields (headerFields h)).length).2) from rfl]
    rw [read_from_socket_take _ _ (by
      intro c hc
      simp only [List.mem_singleton] at hc
      subst hc
      exact dumpsFields_ne_nil _)]
    rw [show ([dumpsFields (headerFields h)] : NetStream).flatten
        = dumpsFields (headerFields h) from by simp]
    rw [List.take_length]
    rw [jsonParse_dumpsFields]

/-! ### The PUT receive loop -/

theorem chunks_length_le_flatten :
    ∀ s : NetStream, (∀ c ∈ s, c ≠ []) → s.length ≤ s.flatten.length := by
  intro s
  induction s with
  | nil => intro _; simp
  | cons c rest ih =>
    intro h
    have hc : c ≠ [] := h c (List.mem_cons_self _ _)
    have hcpos : 1 ≤ c.length := by
      cases c with
      | nil => exact absurd rfl hc
      | cons x t => simp
    have hr := ih (fun x hx => h x (List.mem_cons_of_mem _ hx))
    simp only [List.length_cons, List.flatten_cons, List.length_append]
    omega

theorem putRecvLoopAux_chunks :
    ∀ (s : NetStream) (fuel : Nat) (k n : Int) (acc : List Nat),
      (∀ c ∈ s, c ≠ [] ∧ c.length ≤ BUFFER_SIZE) →
      s.length + 1 ≤ fuel →
      putRecvLoopAux fuel s k n acc
        = (acc ++ (chunksUpTo (k - n) s).1, (chunksUpTo (k - n) s).2) := by
  intro s
  induction s with
  | nil =>
    intro fuel k n acc _ hf
    obtain ⟨g, rfl⟩ : ∃ g, fuel = g + 1 := ⟨fuel - 1, by omega⟩
    simp only [putRecvLoopAux, chunksUpTo]
    by_cases hnk : n < k
    · rw [if_pos hnk]
      simp [recvStream]
    · rw [if_neg hnk]
      simp
  | cons c rest ih =>
    intro fuel k n acc h hf
    obtain ⟨g, rfl⟩ : ∃ g, fuel = g + 1 := ⟨fuel - 1, by omega⟩
    obtain ⟨hc, hcbuf⟩ := h c (List.mem_cons_self _ _)
    have hrest : ∀ x ∈ rest, x ≠ [] ∧ x.length ≤ BUFFER_SIZE :=
      fun x hx => h x (List.mem_cons_of_mem _ hx)
    have hg : rest.length + 1 ≤ g := by
      simp only [List.length_cons] at hf
      omega
    simp only [putRecvLoopAux, chunksUpTo]
    by_cases hnk : n < k
    · rw [if_pos hnk]
      simp only [recvStream]
      rw [List.take_of_length_le hcbuf, if_pos hcbuf, if_neg hc]
      rw [ih g k (n + c.length) (acc ++ c) hrest hg]
      have harith : k - (n + (c.length : Int)) = k - n - c.length := by ring
      rw [harith]
      rw [if_pos (by omega : (0 : Int) < k - n)]
      simp [List.append_assoc]
    · rw [if_neg hnk]
      rw [if_neg (by omega : ¬(0 : Int) < k - n)]
      simp

theorem putRecvLoop_chunks (s : NetStream) (k : Int)
    (h : ∀ c ∈ s, c ≠ [] ∧ c.length ≤ BUFFER_SIZE) :
    putRecvLoop s k = chunksUpTo k s := by
  unfold putRecvLoop
  rw [putRecvLoopAux_chunks s _ k 0 [] h (by
    have := chunks_length_le_flatten s (fun c hc => (h c hc).1)
    omega)]
  simp

theorem chunksUpTo_all :
    ∀ (s : NetStream) (k : Int), (s.flatten.length : Int) ≤ k →
      (chunksUpTo k s).1 = s.flatten := by
  intro s
  induction s with
  | nil => intro k _; simp [chunksUpTo]
  | cons c rest ih =>
    intro k hk
    simp only [List.flatten_cons, List.length_append, Nat.cast_add] at hk
    by_cases h0 : (0 : Int) < k
    · simp only [chunksUpTo, if_pos h0]
      rw [ih (k - c.length) (by omega)]
      simp [List.flatten_cons]
    · have hz : (c ++ rest.flatten).length = 0 := by
        simp only [List.length_append]
        omega
      simp only [chunksUpTo, if_neg h0]
      simp only [List.flatten_cons]
      rw [List.length_eq_zero] at hz
      simp [hz]

theorem chunksUpTo_ge :
    ∀ (s : NetStream) (k : Int), k ≤ (s.flatten.length : Int) →
      k ≤ ((chunksUpTo k s).1.length : Int) := by
  intro s
  induction s with
  | nil =>
    intro k hk
    simpa using hk
  | cons c rest ih =>
    intro k hk
    simp only [List.flatten_cons, List.length_append, Nat.cast_add] at hk
    by_cases h0 : (0 : Int) < k
    · simp only [chunksUpTo, if_pos h0]
      have := ih (k - c.length) (by omega)
      simp only [List.length_append, Nat.cast_add]
      omega
    · omega

/-! ### Sanitizer idempotence -/

theorem secure_filename_idem (s : List Char) :
    secure_filename (secure_filename s) = secure_filename s := by
  by_cases hnil : secure_filename s = []
  · rw [hnil]
    rfl
  · have hrep : pyReplaceSlash (secure_filename s) = secure_filename s :=
      map_eq_self_of_fixed (fun c hc => if_neg (secure_filename_no_slash hc))
    have hsplit : pySplit (secure_filename s) = [secure_filename s] := by
      unfold pySplit
      rw [pySplitAux_no_space _ [] (fun c hc => secure_filename_no_space hc)]
      simp [hnil]
    show pyStrip (pyJoinUnderscore (pySplit (pyReplaceSlash (secure_filename s))))
        = secure_filename s
    rw [hrep, hsplit]
    show pyStrip (secure_filename s) = secure_filename s
    exact pyStrip_idem (pyJoinUnderscore (pySplit (pyReplaceSlash s)))

theorem pyStrip_head_not_strip (s : List Char) {c : Char} {cs : List Char}
    (h : pyStrip s = c :: cs) : isStripSet c = false := by
  obtain ⟨pre, hpre⟩ :=
    dropWhile_suffix_decomp isStripSet (s.dropWhile isStripSet).reverse
  have hd1 : pyStrip s ++ pre.reverse = s.dropWhile isStripSet := by
    have h1 := congrArg List.reverse hpre
    rw [List.reverse_append, List.reverse_reverse] at h1
    calc pyStrip s ++ pre.reverse
        = ((s.dropWhile isStripSet).reverse.dropWhile isStripSet).reverse
            ++ pre.reverse := rfl
      _ = s.dropWhile isStripSet := h1
  rcases dropWhile_head_false isStripSet s with h0 | ⟨c', cs', hc', hpc'⟩
  · rw [h0] at hd1
    simp [h] at hd1
  · rw [hc', h] at hd1
    simp only [List.cons_append] at hd1
    injection hd1 with h1 _
    rwa [h1]

/-! ### Claim theorems -/

/-- Claim C3: for every input string S, the sanitizer output contains no
path-separator character (POSIX separator `/`); moreover it can never be the
traversal names `.` or `..` (leading and trailing dots are stripped), so
using it as a filename stays inside the working directory. -/
theorem c3_sanitizer_no_separator (s : List Char) :
    (secure_filename s).contains '/' = false
    ∧ ¬secure_filename s = ['.']
    ∧ ¬secure_filename s = ['.', '.'] := by
  refine ⟨secure_filename_contains_slash_false s, ?_, ?_⟩
  · intro h
    have hh := pyStrip_head_not_strip
      (pyJoinUnderscore (pySplit (pyReplaceSlash s))) h
    simp [isStripSet] at hh
  · intro h
    have hh := pyStrip_head_not_strip
      (pyJoinUnderscore (pySplit (pyReplaceSlash s))) h
    simp [isStripSet] at hh

/-- Claim C9: the filename sanitizer is idempotent:
`sanitize(sanitize(S)) = sanitize(S)` for every input string S. -/
theorem c9_sanitizer_idempotent (s : List Char) :
    secure_filename (secure_filename s) = secure_filename s :=
  secure_filename_idem s

/-- Claim C1 (code behaviour at the failing input): a PUT request whose
header omits the `filename` field makes `put_handler` raise `AttributeError`
(`None.replace` inside `secure_filename`), which the accept loop — catching
only `KeyboardInterrupt` — does not handle, so the loop terminates on a
per-request error.  The stream below is the frame for `{"method": "PUT"}`. -/
theorem c1_handler_error_escapes_accept_loop :
    runConnections ⟨[], []⟩
      [[[0, 17, 123, 34, 109, 101, 116, 104, 111, 100, 34, 58, 32,
        34, 80, 85, 84, 34, 125]]]
    = .exn .attributeError := by decide

/-- Claim C2 counterexample: for the header table H with a present-but-empty
`filename` field, `decode(encode(H))` is the three-field table without
`filename` — `generate_header` drops a falsy filename — so
`decode(encode(H)) ≠ H` as the claim states it. -/
theorem c2_counterexample_empty_filename :
    (match generate_header ⟨0, 0, utf8Chars, some []⟩ with
     | .ok w => (read_header [w]).1
     | .exn e => (.exn e : PyResult (Option Fields)))
      = .ok (some (headerFields ⟨0, 0, utf8Chars, some []⟩))
    ∧ ¬headerFields ⟨0, 0, utf8Chars, some []⟩
        = specTable ⟨0, 0, utf8Chars, some []⟩ :=
  ⟨by decide, by decide⟩

/-- Claim C2 (amended): for every header H the encoder accepts (status,
content-length, encoding, optional filename) whose filename is absent or
non-empty, and whose encoded body fits in the 16-bit length prefix,
decoding the frame produced by encoding H yields exactly the field table
of H: `decode(encode(H)) = H`. -/
theorem c2_roundtrip_amended (h : Header)
    (hgood : h.filename = none ∨ ∃ f, h.filename = some f ∧ f ≠ [])
    (hlen : (dumpsFields (headerFields h)).length < 65536) :
    ∃ w, generate_header h = .ok w ∧
      (read_header [w]).1 = .ok (some (specTable h)) := by
  have hspec : specTable h = headerFields h := by
    rcases hgood with h0 | ⟨f, hf1, hf2⟩
    · simp [specTable, headerFields, h0]
    · simp [specTable, headerFields, hf1, hf2]
  rw [hspec]
  exact read_header_generate h hlen

theorem c2_roundtrip_amended_witness :
    ∃ w, generate_header ⟨0, 5, utf8Chars, some "a.txt".toList⟩ = .ok w ∧
      (read_header [w]).1
        = .ok (some (specTable ⟨0, 5, utf8Chars, some "a.txt".toList⟩)) :=
  c2_roundtrip_amended ⟨0, 5, utf8Chars, some "a.txt".toList⟩
    (Or.inr ⟨"a.txt".toList, rfl, by decide⟩) (by decide)

/-- Claim C5 counterexample: on a well-framed delivery whose 2-byte prefix is
readable but whose header body `xx` is not parseable, `read_header` does not
produce the caught-`struct.error` FramingError outcome (`None`); it raises an
uncaught `json.JSONDecodeError` instead. -/
theorem c5_counterexample_unparsed_body :
    (read_header [[0, 2], [120, 120]]).1 = .exn .jsonDecodeError
    ∧ ¬(read_header [[0, 2], [120, 120]]).1 = .ok none :=
  ⟨by decide, by decide⟩

/-- Claim C5 (amended): `read_header` yields the `None` outcome exactly
when the single unlooped `recv(2)` returns a packet of length other than 2
(the caught `struct.error`: peer closed before a frame, or a partial prefix
delivery), or the prefix is readable and the header body parses as the JSON
document `null` — `json.loads(b'null')` returns `None`, which `read_header`
passes through.  An unparseable header body instead raises an uncaught JSON
decode error. -/
theorem c5_framing_amended (s : NetStream) :
    (((read_header s).1 = .ok none) ↔
      (match unpackU16 (recvStream s 2).1 with
       | none => True
       | some size =>
         jsonParse ((read_from_socket (recvStream s 2).2 size).1)
           = some JDoc.jnull))
    ∧ (unpackU16 (recvStream s 2).1 = none
        ↔ ¬(recvStream s 2).1.length = 2) := by
  constructor
  · unfold read_header
    rcases hrecv : recvStream s 2 with ⟨pkt, s1⟩
    dsimp only
    rcases pkt with _ | ⟨a, _ | ⟨b, _ | ⟨c, t⟩⟩⟩
    · simp [unpackU16]
    · simp [unpackU16]
    · simp only [unpackU16]
      rcases hrd : read_from_socket s1 (a * 256 + b) with ⟨data, s2⟩
      dsimp only
      cases hj : jsonParse data with
      | none => simp
      | some d =>
        cases d with
        | obj f => simp
        | jnull => simp
    · simp [unpackU16]
  · rcases hrecv : recvStream s 2 with ⟨pkt, s1⟩
    rcases pkt with _ | ⟨a, _ | ⟨b, _ | ⟨c, t⟩⟩⟩ <;> simp [unpackU16]

/-- Claim C6 (code behaviour at the failing input): delivering the length
prefix one byte at a time makes `read_header` fail (`recv(2)` is a single
unlooped call returning 1 byte, so `struct.unpack` raises), while the same
bytes in a single delivery decode fine; `read_from_socket` itself, used for
the header body, is chunking-invariant at the same granularity. -/
theorem c6_prefix_read_divergence :
    (read_header [[0], [2, 123, 125]]).1 = .ok none
    ∧ (read_header [[0, 2, 123, 125]]).1 = .ok (some [])
    ∧ (read_from_socket [[0], [2], [99]] 3).1
        = (read_from_socket [[0, 2, 99]] 3).1 :=
  ⟨by decide, by decide, by decide⟩

/-- Claim C4 counterexample: with declared `content-length = 1` and a single
2-byte delivery, the PUT success path reads and writes both bytes —
`recv(BUFFER_SIZE)` is not clamped to the bytes still owed — so the server
does not read "exactly content-length bytes and no more". -/
theorem c4_counterexample_overread :
    put_handler ⟨[], []⟩ [[7, 8]]
        [(kFilename, .str "f".toList), (kContentLength, .num 1)]
      = PyResult.map
          (fun w => ⟨FS.insertFile ⟨[], []⟩ "f".toList [7, 8], [w], []⟩)
          (generate_header ⟨statusOK, 0, utf8Chars, none⟩)
    ∧ ¬([7, 8] : List Nat).length = 1 :=
  ⟨by decide, by decide⟩

/-- Claim C4 (amended): on the PUT success path (filename present, sanitized
name non-empty and not existing, non-zero declared length k), after the OK
acknowledgment the server keeps `recv`-ing chunks while fewer than k bytes
have arrived, writing every received byte to the newly created file — at
least k bytes when the stream holds that many (possibly more than k when the
final chunk overruns the declared length), and everything that arrived when
the connection closes early, leaving the partial file. -/
theorem c4_put_receive_amended (fs : FS) (s : NetStream) (hdr : Fields)
    (f0 : List Char) (k : Int)
    (hf : hdr.lookup kFilename = some (.str f0))
    (hname : ¬secure_filename f0 = [])
    (hex : fs.existsEntry (secure_filename f0) = false)
    (hcl : hdr.lookup kContentLength = some (.num k))
    (hk : ¬k = 0)
    (hs : ∀ c ∈ s, c ≠ [] ∧ c.length ≤ BUFFER_SIZE) :
    put_handler fs s hdr
      = PyResult.map
          (fun w => ⟨fs.insertFile (secure_filename f0) (chunksUpTo k s).1,
            [w], (chunksUpTo k s).2⟩)
          (generate_header ⟨statusOK, 0, utf8Chars, none⟩)
    ∧ ((s.flatten.length : Int) ≤ k → (chunksUpTo k s).1 = s.flatten)
    ∧ (k ≤ (s.flatten.length : Int) → k ≤ ((chunksUpTo k s).1.length : Int)) := by
  refine ⟨?_, chunksUpTo_all s k, chunksUpTo_ge s k⟩
  unfold put_handler
  rw [hf]
  dsimp only
  rw [hex]
  rw [if_neg (by simp)]
  cases hgen : generate_header ⟨statusOK, 0, utf8Chars, none⟩ with
  | exn e => simp [PyResult.map]
  | ok ack =>
    dsimp only
    rw [hcl]
    dsimp only
    rw [if_neg hk, if_neg hname]
    rw [putRecvLoop_chunks s k hs]
    simp [PyResult.map]

theorem c4_put_receive_amended_witness :
    put_handler ⟨[], []⟩ [[1, 2]]
        [(kFilename, .str "g".toList), (kContentLength, .num 2)]
      = PyResult.map
          (fun w => ⟨FS.insertFile ⟨[], []⟩ (secure_filename "g".toList)
            (chunksUpTo 2 [[1, 2]]).1, [w], (chunksUpTo 2 [[1, 2]]).2⟩)
          (generate_header ⟨statusOK, 0, utf8Chars, none⟩) :=
  (c4_put_receive_amended ⟨[], []⟩ [[1, 2]]
    [(kFilename, .str "g".toList), (kContentLength, .num 2)] "g".toList 2
    (by decide) (by decide) (by decide) (by decide) (by decide) (by decide)).1

/-- Claim C7: a PUT whose sanitized filename already exists as any
filesystem entry gets a `status=ERROR` response with payload
`File Exists: "<name>"`; the filesystem is unchanged and no payload byte is
read from the stream (the output carries `fs` and `s` untouched). -/
theorem c7_put_conflict (fs : FS) (s : NetStream) (hdr : Fields)
    (f0 : List Char)
    (hf : hdr.lookup kFilename = some (.str f0))
    (hex : fs.existsEntry (secure_filename f0) = true) :
    put_handler fs s hdr
      = PyResult.map (fun w => ⟨fs, [w], s⟩)
          (send_error_msg (fileExistsMsg (secure_filename f0))) := by
  unfold put_handler
  rw [hf]
  dsimp only
  rw [hex]
  rw [if_pos rfl]
  cases hsem : send_error_msg (fileExistsMsg (secure_filename f0)) <;>
    simp [PyResult.map]

theorem c7_put_conflict_witness :
    put_handler ⟨[("f".toList, [1])], []⟩ [[9]]
        [(kFilename, .str "f".toList)]
      = PyResult.map
          (fun w => ⟨⟨[("f".toList, [1])], []⟩, [w], [[9]]⟩)
          (send_error_msg (fileExistsMsg (secure_filename "f".toList))) :=
  c7_put_conflict ⟨[("f".toList, [1])], []⟩ [[9]]
    [(kFilename, .str "f".toList)] "f".toList (by decide) (by decide)

/-- Claim C8: a PUT with declared `content-length = 0` whose sanitized name
does not exist sends only the OK acknowledgment, skips the receive loop
(stream untouched), creates no file (filesystem untouched), and sends no
error response. -/
theorem c8_put_zero_length (fs : FS) (s : NetStream) (hdr : Fields)
    (f0 : List Char)
    (hf : hdr.lookup kFilename = some (.str f0))
    (hex : fs.existsEntry (secure_filename f0) = false)
    (hcl : hdr.lookup kContentLength = some (.num 0)) :
    put_handler fs s hdr
      = PyResult.map (fun w => ⟨fs, [w], s⟩)
          (generate_header ⟨statusOK, 0, utf8Chars, none⟩) := by
  unfold put_handler
  rw [hf]
  dsimp only
  rw [hex]
  rw [if_neg (by simp)]
  cases hgen : generate_header ⟨statusOK, 0, utf8Chars, none⟩ with
  | exn e => simp [PyResult.map]
  | ok ack =>
    dsimp only
    rw [hcl]
    dsimp only
    rw [if_pos rfl]
    simp [PyResult.map]

theorem c8_put_zero_length_witness :
    put_handler ⟨[], []⟩ [[5]]
        [(kFilename, .str "h".toList), (kContentLength, .num 0)]
      = PyResult.map
          (fun w => ⟨(⟨[], []⟩ : FS), [w], [[5]]⟩)
          (generate_header ⟨statusOK, 0, utf8Chars, none⟩) :=
  c8_put_zero_length ⟨[], []⟩ [[5]]
    [(kFilename, .str "h".toList), (kContentLength, .num 0)] "h".toList
    (by decide) (by decide) (by decide)

/-- Claim C10: a GET whose header omits `filename` is handled with the
literal name `None` (`str(None)`, unchanged by the sanitizer): the file
named `None` is served when it exists, otherwise the response is
`status=ERROR` with payload `File not found "None"` — the request is not
rejected as malformed. -/
theorem c10_get_missing_filename (fs : FS) (s : NetStream) (hdr : Fields)
    (hf : hdr.lookup kFilename = none) :
    get_handler fs s hdr
      = (match fs.files.lookup "None".toList with
         | some content =>
           PyResult.map (fun w => ⟨fs, w :: fileChunks content, s⟩)
             (generate_header ⟨statusOK, (content.length : Int), binaryChars,
               some "None".toList⟩)
         | none =>
           PyResult.map (fun w => ⟨fs, [w], s⟩)
             (send_error_msg (fileNotFoundMsg "None".toList))) := by
  unfold get_handler
  rw [hf]
  rw [show secure_filename (pyStr none) = "None".toList from by decide]
  cases hlook : fs.files.lookup "None".toList with
  | some content =>
    dsimp only
    rw [hlook]
    dsimp only
    cases hgen : generate_header ⟨statusOK, (content.length : Int), binaryChars,
        some "None".toList⟩ with
    | ok w => simp [PyResult.map]
    | exn e => simp [PyResult.map]
  | none =>
    dsimp only
    rw [hlook]
    dsimp only
    cases hsem : send_error_msg (fileNotFoundMsg "None".toList) with
    | ok w => simp [PyResult.map]
    | exn e => simp [PyResult.map]

theorem c10_get_missing_filename_witness :
    get_handler ⟨[], []⟩ [] []
      = (match (⟨[], []⟩ : FS).files.lookup "None".toList with
         | some content =>
           PyResult.map (fun w => ⟨(⟨[], []⟩ : FS), w :: fileChunks content, []⟩)
             (generate_header ⟨statusOK, (content.length : Int), binaryChars,
               some "None".toList⟩)
         | none =>
           PyResult.map (fun w => ⟨(⟨[], []⟩ : FS), [w], []⟩)
             (send_error_msg (fileNotFoundMsg "None".toList))) :=
  c10_get_missing_filename ⟨[], []⟩ [] [] (by decide)

end Tfsc
